import Mathlib

/-!
Verification of `CCalibrationMap` (CCalibrationMap.h).

The C++ class stores a `std::map<double, double>` from nominal value to
signed error (`nominal - calibrated`).  We embed the map as a strictly
key-sorted association list over `ℚ` (mirroring the ordered-map invariant
of `std::map`), and each throwing operation as an `Except CalibError`
computation.  Platform floating-point-to-text formatting in
`GetMapSummary` is abstracted as a rendering function `fmt : ℚ → String`.
-/

/-- The calibration table: an association list from nominal key to stored
error, kept strictly sorted by key (the `std::map` representation). -/
abbrev CalibMap := List (ℚ × ℚ)

/-- The three exception kinds thrown by the C++ code:
`std::runtime_error` (empty map), `std::out_of_range`, and
`std::invalid_argument`. -/
inductive CalibError where
  | emptyTable : CalibError
  | outOfRange : CalibError
  | invalidArgument : CalibError
deriving DecidableEq, Repr

/-- The `std::map` ordering invariant: keys strictly increasing. -/
def KeysSorted (t : CalibMap) : Prop :=
  t.Pairwise (fun a b => a.1 < b.1)

instance (t : CalibMap) : Decidable (KeysSorted t) := by
  unfold KeysSorted; infer_instance

/-- `m_CalibratedMap.find(k)`: exact-key lookup in the map. -/
def lookup (k : ℚ) : CalibMap → Option ℚ
  | [] => none
  | (k', v') :: rest => if k = k' then some v' else lookup k rest

/-- `m_CalibratedMap[k] = v`: insert-or-overwrite into the sorted map
(the assignment performed by `AddPoint`). -/
def insertEntry (k v : ℚ) : CalibMap → CalibMap
  | [] => [(k, v)]
  | (k', v') :: rest =>
    if k < k' then (k, v) :: (k', v') :: rest
    else if k = k' then (k, v) :: rest
    else (k', v') :: insertEntry k v rest

/-- `std::map::insert`: inserts only when the key is absent (the per-entry
behaviour of the range insert used by `AppendMap`). -/
def insertIfAbsent (k v : ℚ) : CalibMap → CalibMap
  | [] => [(k, v)]
  | (k', v') :: rest =>
    if k < k' then (k, v) :: (k', v') :: rest
    else if k = k' then (k', v') :: rest
    else (k', v') :: insertIfAbsent k v rest

/-- `m_CalibratedMap.upper_bound(k)`: the first entry with key strictly
greater than `k`, or `none` (`end()`). -/
def upperBound (k : ℚ) : CalibMap → Option (ℚ × ℚ)
  | [] => none
  | (k', v') :: rest => if k < k' then some (k', v') else upperBound k rest

/-- `prev(upper_bound(k))` when `upper_bound(k) ≠ begin()`, else `end()`:
the last entry with key less than or equal to `k`. -/
def lowerBoundLE (k : ℚ) : CalibMap → Option (ℚ × ℚ)
  | [] => none
  | (k', v') :: rest =>
    if k < k' then none
    else
      match lowerBoundLE k rest with
      | some p => some p
      | none => some (k', v')

/-- `CCalibrationMap::AddPoint`: stores `Nominal - Calibrated` at key
`Nominal`, overwriting any existing entry. -/
def addPoint (nominal calibrated : ℚ) (t : CalibMap) : CalibMap :=
  insertEntry nominal (nominal - calibrated) t

/-- `CCalibrationMap::AddPoints`: throws `std::invalid_argument` when the
two vectors differ in size, otherwise applies `AddPoint` to each
positional pair in order. -/
def addPoints (nominals calibrateds : List ℚ) (t : CalibMap) :
    Except CalibError CalibMap :=
  if nominals.length ≠ calibrateds.length then
    .error .invalidArgument
  else
    .ok ((nominals.zip calibrateds).foldl
      (fun acc p => addPoint p.1 p.2 acc) t)

/-- `CCalibrationMap::SetMap`: replaces the whole table by the given
key → error mapping. -/
def setMap (entries : CalibMap) (_t : CalibMap) : CalibMap :=
  entries

/-- `CCalibrationMap::AppendMap`: `m_CalibratedMap.insert(Map.begin(),
Map.end())` — each incoming entry is inserted only if its key is absent. -/
def appendMap (entries : CalibMap) (t : CalibMap) : CalibMap :=
  entries.foldl (fun acc p => insertIfAbsent p.1 p.2 acc) t

/-- `CCalibrationMap::Interpolate`: linear interpolation
`y1 + (x - x1) * (y2 - y1) / (x2 - x1)`. -/
def interpolate (x x1 y1 x2 y2 : ℚ) : ℚ :=
  y1 + (x - x1) * (y2 - y1) / (x2 - x1)

/-- `CCalibrationMap::ErrorValue`: throws on an empty map; returns the
stored error on an exact key match; otherwise interpolates between
`prev(upper_bound(Nominal))` and `upper_bound(Nominal)`, throwing
`std::out_of_range` when either is `end()`. -/
def errorValue (nominal : ℚ) (t : CalibMap) : Except CalibError ℚ :=
  if t.isEmpty then .error .emptyTable
  else
    match lookup nominal t with
    | some e => .ok e
    | none =>
      match lowerBoundLE nominal t, upperBound nominal t with
      | some lo, some hi => .ok (interpolate nominal lo.1 lo.2 hi.1 hi.2)
      | _, _ => .error .outOfRange

/-- `CCalibrationMap::CorrectedPosition`: `Nominal - ErrorValue(Nominal)`,
propagating any exception from `ErrorValue`. -/
def correctedPosition (nominal : ℚ) (t : CalibMap) : Except CalibError ℚ :=
  (errorValue nominal t).map (fun e => nominal - e)

/-- One data row of `GetMapSummary` for stored key `k`: the loop body
`first \t first - ErrorValue(first) \t\t ErrorValue(first) \t
CorrectedPosition(first) \n`, with each query performed in source order. -/
def summaryRow (fmt : ℚ → String) (t : CalibMap) (k : ℚ) :
    Except CalibError String := do
  let e1 ← errorValue k t
  let e2 ← errorValue k t
  let c ← correctedPosition k t
  pure (fmt k ++ "\t" ++ fmt (k - e1) ++ "\t\t" ++ fmt e2 ++ "\t"
    ++ fmt c ++ "\n")

/-- The summary loop: iterates over the remaining entries, appending one
row per entry to the accumulated output. -/
def summaryGo (fmt : ℚ → String) (t : CalibMap) :
    List (ℚ × ℚ) → String → Except CalibError String
  | [], acc => .ok acc
  | p :: rest, acc => do
    let row ← summaryRow fmt t p.1
    summaryGo fmt t rest (acc ++ row)

/-- `CCalibrationMap::GetMapSummary`: the header line followed by one row
per stored entry in map (ascending-key) order. -/
def getMapSummary (fmt : ℚ → String) (t : CalibMap) :
    Except CalibError String :=
  summaryGo fmt t t "Nominal\tCalibrated\tError\tCorrected\n"

instance {ε α : Type} [DecidableEq ε] [DecidableEq α] :
    DecidableEq (Except ε α) :=
  fun a b =>
    match a, b with
    | .ok x, .ok y =>
      if h : x = y then .isTrue (by rw [h]) else .isFalse (by simp [h])
    | .error x, .error y =>
      if h : x = y then .isTrue (by rw [h]) else .isFalse (by simp [h])
    | .ok _, .error _ => .isFalse (by simp)
    | .error _, .ok _ => .isFalse (by simp)

/-! ### Lookup lemmas -/

theorem lookup_eq_none_iff (k : ℚ) (t : CalibMap) :
    lookup k t = none ↔ ∀ p ∈ t, p.1 ≠ k := by
  induction t with
  | nil => simp [lookup]
  | cons hd tl ih =>
    obtain ⟨k', v'⟩ := hd
    by_cases h : k = k'
    · subst h
      simp [lookup]
    · simp only [lookup, if_neg h, List.mem_cons, ih]
      constructor
      · rintro hall p (rfl | hp)
        · simpa using fun hk => h hk.symm
        · exact hall p hp
      · intro hall p hp
        exact hall p (Or.inr hp)

theorem lookup_eq_some_of_mem (t : CalibMap) (ht : KeysSorted t)
    (k e : ℚ) (hmem : (k, e) ∈ t) : lookup k t = some e := by
  induction t with
  | nil => simp at hmem
  | cons hd tl ih =>
    obtain ⟨k', v'⟩ := hd
    rw [KeysSorted, List.pairwise_cons] at ht
    rcases List.mem_cons.mp hmem with heq | hmemtl
    · obtain ⟨rfl, rfl⟩ := Prod.mk.injEq .. ▸ heq
      simp [lookup]
    · have hk : k' < k := ht.1 _ hmemtl
      have hne : k ≠ k' := ne_of_gt hk
      simp only [lookup, if_neg hne]
      exact ih ht.2 hmemtl

theorem mem_of_lookup_eq_some (t : CalibMap) (k e : ℚ)
    (h : lookup k t = some e) : (k, e) ∈ t := by
  induction t with
  | nil => simp [lookup] at h
  | cons hd tl ih =>
    obtain ⟨k', v'⟩ := hd
    by_cases hk : k = k'
    · subst hk
      simp [lookup] at h
      subst h
      exact List.mem_cons_self ..
    · simp only [lookup, if_neg hk] at h
      exact List.mem_cons_of_mem _ (ih h)

/-! ### insertEntry lemmas -/

theorem mem_insertEntry (k v : ℚ) (t : CalibMap) (p : ℚ × ℚ)
    (h : p ∈ insertEntry k v t) : p = (k, v) ∨ p ∈ t := by
  induction t with
  | nil => simpa [insertEntry] using h
  | cons hd tl ih =>
    obtain ⟨k', v'⟩ := hd
    by_cases h1 : k < k'
    · simp only [insertEntry, if_pos h1, List.mem_cons] at h ⊢
      tauto
    · by_cases h2 : k = k'
      · simp only [insertEntry, if_neg h1, if_pos h2, List.mem_cons] at h ⊢
        tauto
      · simp only [insertEntry, if_neg h1, if_neg h2, List.mem_cons] at h
        rcases h with rfl | h
        · exact Or.inr (List.mem_cons_self ..)
        · rcases ih h with h | h
          · exact Or.inl h
          · exact Or.inr (List.mem_cons_of_mem _ h)

theorem keysSorted_insertEntry (k v : ℚ) (t : CalibMap)
    (ht : KeysSorted t) : KeysSorted (insertEntry k v t) := by
  induction t with
  | nil => simp [insertEntry, KeysSorted]
  | cons hd tl ih =>
    obtain ⟨k', v'⟩ := hd
    rw [KeysSorted, List.pairwise_cons] at ht
    by_cases h1 : k < k'
    · rw [insertEntry, if_pos h1, KeysSorted, List.pairwise_cons]
      refine ⟨?_, List.pairwise_cons.mpr ht⟩
      rintro ⟨a, b⟩ hab
      rcases List.mem_cons.mp hab with heq | hmem
      · rw [heq]; exact h1
      · exact lt_trans h1 (ht.1 _ hmem)
    · by_cases h2 : k = k'
      · subst h2
        rw [insertEntry, if_neg h1, if_pos rfl, KeysSorted, List.pairwise_cons]
        exact ht
      · rw [insertEntry, if_neg h1, if_neg h2, KeysSorted, List.pairwise_cons]
        refine ⟨?_, ih ht.2⟩
        rintro ⟨a, b⟩ hab
        rcases mem_insertEntry k v tl _ hab with heq | hmem
        · rw [heq]
          exact lt_of_le_of_ne (le_of_not_lt h1) (Ne.symm h2)
        · exact ht.1 _ hmem

theorem lookup_insertEntry_self (k v : ℚ) (t : CalibMap) :
    lookup k (insertEntry k v t) = some v := by
  induction t with
  | nil => simp [insertEntry, lookup]
  | cons hd tl ih =>
    obtain ⟨k', v'⟩ := hd
    by_cases h1 : k < k'
    · simp [insertEntry, if_pos h1, lookup]
    · by_cases h2 : k = k'
      · simp [insertEntry, if_neg h1, if_pos h2, lookup]
      · simp only [insertEntry, if_neg h1, if_neg h2, lookup, if_neg h2]
        exact ih

theorem lookup_insertEntry_ne (k j v : ℚ) (t : CalibMap) (hne : k ≠ j) :
    lookup k (insertEntry j v t) = lookup k t := by
  induction t with
  | nil => simp [insertEntry, lookup, hne]
  | cons hd tl ih =>
    obtain ⟨k', v'⟩ := hd
    by_cases h1 : j < k'
    · simp [insertEntry, if_pos h1, lookup, hne]
    · by_cases h2 : j = k'
      · subst h2
        simp [insertEntry, if_neg h1, lookup, hne]
      · simp only [insertEntry, if_neg h1, if_neg h2, lookup]
        by_cases h3 : k = k'
        · simp [h3]
        · simp [h3, ih]

/-! ### insertIfAbsent lemmas -/

theorem mem_insertIfAbsent (k v : ℚ) (t : CalibMap) (p : ℚ × ℚ)
    (h : p ∈ insertIfAbsent k v t) : p = (k, v) ∨ p ∈ t := by
  induction t with
  | nil => simpa [insertIfAbsent] using h
  | cons hd tl ih =>
    obtain ⟨k', v'⟩ := hd
    by_cases h1 : k < k'
    · simp only [insertIfAbsent, if_pos h1, List.mem_cons] at h ⊢
      tauto
    · by_cases h2 : k = k'
      · simp only [insertIfAbsent, if_neg h1, if_pos h2, List.mem_cons] at h ⊢
        tauto
      · simp only [insertIfAbsent, if_neg h1, if_neg h2, List.mem_cons] at h ⊢
        tauto

theorem keysSorted_insertIfAbsent (k v : ℚ) (t : CalibMap)
    (ht : KeysSorted t) : KeysSorted (insertIfAbsent k v t) := by
  induction t with
  | nil => simp [insertIfAbsent, KeysSorted]
  | cons hd tl ih =>
    obtain ⟨k', v'⟩ := hd
    rw [KeysSorted, List.pairwise_cons] at ht
    by_cases h1 : k < k'
    · rw [insertIfAbsent, if_pos h1, KeysSorted, List.pairwise_cons]
      refine ⟨?_, List.pairwise_cons.mpr ht⟩
      rintro ⟨a, b⟩ hab
      rcases List.mem_cons.mp hab with heq | hmem
      · rw [heq]; exact h1
      · exact lt_trans h1 (ht.1 _ hmem)
    · by_cases h2 : k = k'
      · rw [insertIfAbsent, if_neg h1, if_pos h2, KeysSorted, List.pairwise_cons]
        exact ht
      · rw [insertIfAbsent, if_neg h1, if_neg h2, KeysSorted, List.pairwise_cons]
        refine ⟨?_, ih ht.2⟩
        rintro ⟨a, b⟩ hab
        rcases mem_insertIfAbsent k v tl _ hab with heq | hmem
        · rw [heq]
          exact lt_of_le_of_ne (le_of_not_lt h1) (Ne.symm h2)
        · exact ht.1 _ hmem

theorem lookup_insertIfAbsent_ne (k j v : ℚ) (t : CalibMap) (hne : k ≠ j) :
    lookup k (insertIfAbsent j v t) = lookup k t := by
  induction t with
  | nil => simp [insertIfAbsent, lookup, hne]
  | cons hd tl ih =>
    obtain ⟨k', v'⟩ := hd
    by_cases h1 : j < k'
    · simp [insertIfAbsent, if_pos h1, lookup, hne]
    · by_cases h2 : j = k'
      · subst h2
        simp [insertIfAbsent, if_neg h1, lookup, hne]
      · simp only [insertIfAbsent, if_neg h1, if_neg h2, lookup]
        by_cases h3 : k = k'
        · simp [h3]
        · simp [h3, ih]

theorem lookup_insertIfAbsent_absent (k v : ℚ) (t : CalibMap)
    (habs : lookup k t = none) :
    lookup k (insertIfAbsent k v t) = some v := by
  induction t with
  | nil => simp [insertIfAbsent, lookup]
  | cons hd tl ih =>
    obtain ⟨k', v'⟩ := hd
    by_cases h1 : k < k'
    · simp [insertIfAbsent, if_pos h1, lookup]
    · by_cases h2 : k = k'
      · simp [lookup, h2] at habs
      · simp only [lookup, if_neg h2] at habs
        simp only [insertIfAbsent, if_neg h1, if_neg h2, lookup, if_neg h2]
        exact ih habs

theorem lookup_insertIfAbsent_present (k v w : ℚ) (t : CalibMap)
    (ht : KeysSorted t) (hpres : lookup k t = some w) :
    lookup k (insertIfAbsent k v t) = some w := by
  induction t with
  | nil => simp [lookup] at hpres
  | cons hd tl ih =>
    obtain ⟨k', v'⟩ := hd
    rw [KeysSorted, List.pairwise_cons] at ht
    by_cases h1 : k < k'
    · exfalso
      rcases List.mem_cons.mp (mem_of_lookup_eq_some _ k w hpres) with heq | hmem
      · exact absurd (congrArg Prod.fst heq) (ne_of_lt h1)
      · exact lt_asymm h1 (ht.1 _ hmem)
    · by_cases h2 : k = k'
      · rw [insertIfAbsent, if_neg h1, if_pos h2]
        exact hpres
      · simp only [lookup, if_neg h2] at hpres
        simp only [insertIfAbsent, if_neg h1, if_neg h2, lookup, if_neg h2]
        exact ih ht.2 hpres

/-! ### appendMap lemmas -/

theorem lookup_appendMap_present (M t : CalibMap) (ht : KeysSorted t)
    (k w : ℚ) (hpres : lookup k t = some w) :
    lookup k (appendMap M t) = some w := by
  induction M generalizing t with
  | nil => simpa [appendMap] using hpres
  | cons hd Mtl ih =>
    obtain ⟨j, u⟩ := hd
    show lookup k (appendMap Mtl (insertIfAbsent j u t)) = some w
    refine ih (insertIfAbsent j u t) (keysSorted_insertIfAbsent j u t ht) ?_
    by_cases hkj : k = j
    · subst hkj
      exact lookup_insertIfAbsent_present k u w t ht hpres
    · rw [lookup_insertIfAbsent_ne k j u t hkj]
      exact hpres

theorem lookup_appendMap_absent (M t : CalibMap) (ht : KeysSorted t)
    (k v : ℚ) (habs : lookup k t = none) (hin : lookup k M = some v) :
    lookup k (appendMap M t) = some v := by
  induction M generalizing t with
  | nil => simp [lookup] at hin
  | cons hd Mtl ih =>
    obtain ⟨j, u⟩ := hd
    show lookup k (appendMap Mtl (insertIfAbsent j u t)) = some v
    by_cases hkj : k = j
    · subst hkj
      simp [lookup] at hin
      subst hin
      exact lookup_appendMap_present Mtl _
        (keysSorted_insertIfAbsent k u t ht) k u
        (lookup_insertIfAbsent_absent k u t habs)
    · simp only [lookup, if_neg hkj] at hin
      refine ih (insertIfAbsent j u t) (keysSorted_insertIfAbsent j u t ht) ?_ hin
      rw [lookup_insertIfAbsent_ne k j u t hkj]
      exact habs

/-! ### upperBound and lowerBoundLE lemmas -/

theorem upperBound_mem (k : ℚ) (t : CalibMap) (p : ℚ × ℚ)
    (h : upperBound k t = some p) : p ∈ t ∧ k < p.1 := by
  induction t with
  | nil => simp [upperBound] at h
  | cons hd tl ih =>
    obtain ⟨k', v'⟩ := hd
    by_cases h1 : k < k'
    · simp only [upperBound, if_pos h1, Option.some.injEq] at h
      subst h
      exact ⟨List.mem_cons_self .., h1⟩
    · simp only [upperBound, if_neg h1] at h
      obtain ⟨hm, hk⟩ := ih h
      exact ⟨List.mem_cons_of_mem _ hm, hk⟩

theorem lowerBoundLE_mem (k : ℚ) (t : CalibMap) (p : ℚ × ℚ)
    (h : lowerBoundLE k t = some p) : p ∈ t ∧ p.1 ≤ k := by
  induction t with
  | nil => simp [lowerBoundLE] at h
  | cons hd tl ih =>
    obtain ⟨k', v'⟩ := hd
    by_cases h1 : k < k'
    · simp [lowerBoundLE, if_pos h1] at h
    · simp only [lowerBoundLE, if_neg h1] at h
      cases hrec : lowerBoundLE k tl with
      | some q =>
        rw [hrec] at h
        simp only [Option.some.injEq] at h
        subst h
        obtain ⟨hm, hk⟩ := ih hrec
        exact ⟨List.mem_cons_of_mem _ hm, hk⟩
      | none =>
        rw [hrec] at h
        simp only [Option.some.injEq] at h
        subst h
        exact ⟨List.mem_cons_self .., le_of_not_lt h1⟩

theorem upperBound_eq_none_iff (k : ℚ) (t : CalibMap) :
    upperBound k t = none ↔ ∀ p ∈ t, ¬ k < p.1 := by
  induction t with
  | nil => simp [upperBound]
  | cons hd tl ih =>
    obtain ⟨k', v'⟩ := hd
    by_cases h1 : k < k'
    · simp [upperBound, if_pos h1, h1]
    · simp only [upperBound, if_neg h1, ih, List.mem_cons]
      constructor
      · rintro hall p (rfl | hp)
        · exact h1
        · exact hall p hp
      · intro hall p hp
        exact hall p (Or.inr hp)

theorem lowerBoundLE_eq_none_iff (k : ℚ) (t : CalibMap) (ht : KeysSorted t) :
    lowerBoundLE k t = none ↔ ∀ p ∈ t, k < p.1 := by
  induction t with
  | nil => simp [lowerBoundLE]
  | cons hd tl ih =>
    obtain ⟨k', v'⟩ := hd
    rw [KeysSorted, List.pairwise_cons] at ht
    by_cases h1 : k < k'
    · refine iff_of_true (by rw [lowerBoundLE, if_pos h1]) ?_
      rintro p hp
      rcases List.mem_cons.mp hp with rfl | hm
      · exact h1
      · exact lt_trans h1 (ht.1 _ hm)
    · refine iff_of_false ?_ ?_
      · rw [lowerBoundLE, if_neg h1]
        cases h : lowerBoundLE k tl <;> simp [h]
      · intro hall
        exact h1 (hall (k', v') (List.mem_cons_self ..))

theorem upperBound_eq_some_of (t : CalibMap) (ht : KeysSorted t)
    (k ku eu : ℚ) (hmem : (ku, eu) ∈ t) (hgt : k < ku)
    (hmin : ∀ p ∈ t, k < p.1 → ku ≤ p.1) :
    upperBound k t = some (ku, eu) := by
  induction t with
  | nil => simp at hmem
  | cons hd tl ih =>
    obtain ⟨k', v'⟩ := hd
    rw [KeysSorted, List.pairwise_cons] at ht
    by_cases h1 : k < k'
    · rw [upperBound, if_pos h1]
      have hle : ku ≤ k' := hmin (k', v') (List.mem_cons_self ..) h1
      rcases List.mem_cons.mp hmem with heq | hm
      · rw [← heq]
      · exact absurd (ht.1 _ hm) (not_lt_of_le hle)
    · rw [upperBound, if_neg h1]
      rcases List.mem_cons.mp hmem with heq | hm
      · exfalso
        have : ku = k' := congrArg Prod.fst heq
        exact h1 (this ▸ hgt)
      · exact ih ht.2 hm
          (fun p hp hkp => hmin p (List.mem_cons_of_mem _ hp) hkp)

theorem lowerBoundLE_eq_some_of (t : CalibMap) (ht : KeysSorted t)
    (k kl el : ℚ) (hmem : (kl, el) ∈ t) (hle : kl ≤ k)
    (hmax : ∀ p ∈ t, p.1 ≤ k → p.1 ≤ kl) :
    lowerBoundLE k t = some (kl, el) := by
  induction t with
  | nil => simp at hmem
  | cons hd tl ih =>
    obtain ⟨k', v'⟩ := hd
    rw [KeysSorted, List.pairwise_cons] at ht
    by_cases h1 : k < k'
    · exfalso
      rcases List.mem_cons.mp hmem with heq | hm
      · have : kl = k' := congrArg Prod.fst heq
        exact absurd hle (not_le_of_lt (this ▸ h1))
      · exact absurd hle (not_le_of_lt (lt_trans h1 (ht.1 _ hm)))
    · rw [lowerBoundLE, if_neg h1]
      rcases List.mem_cons.mp hmem with heq | hm
      · have hnone : lowerBoundLE k tl = none := by
          cases hq : lowerBoundLE k tl with
          | none => rfl
          | some q =>
            exfalso
            obtain ⟨hqm, hqle⟩ := lowerBoundLE_mem k tl q hq
            have hk' : k' < q.1 := ht.1 _ hqm
            have hql : q.1 ≤ kl :=
              hmax q (List.mem_cons_of_mem _ hqm) hqle
            have : kl = k' := congrArg Prod.fst heq
            exact absurd (hql.trans_lt (this ▸ hk')) (lt_irrefl _)
        rw [hnone, ← heq]
      · have hrec := ih ht.2 hm
          (fun p hp hkp => hmax p (List.mem_cons_of_mem _ hp) hkp)
        rw [hrec]

/-- On a sorted table, `ErrorValue` at a stored key takes the exact-match
branch and returns the stored error. -/
theorem errorValue_exact (t : CalibMap) (ht : KeysSorted t) (k e : ℚ)
    (hmem : (k, e) ∈ t) : errorValue k t = .ok e := by
  have hlk := lookup_eq_some_of_mem t ht k e hmem
  cases t with
  | nil => simp at hmem
  | cons hd tl => simp [errorValue, hlk]

theorem insertEntry_idem (k v : ℚ) (t : CalibMap) :
    insertEntry k v (insertEntry k v t) = insertEntry k v t := by
  induction t with
  | nil => simp [insertEntry, lt_irrefl]
  | cons hd tl ih =>
    obtain ⟨k', v'⟩ := hd
    by_cases h1 : k < k'
    · simp only [insertEntry, if_pos h1]
      simp [insertEntry, lt_irrefl, h1]
    · by_cases h2 : k = k'
      · simp only [insertEntry, if_neg h1, if_pos h2]
        simp [insertEntry, lt_irrefl]
      · simp only [insertEntry, if_neg h1, if_neg h2, ih]

/-! ### Claim theorems -/

/-- C1: `ErrorValue(nominal)` on a non-empty table returns the stored
error directly when `nominal` exactly equals a stored key, and for a
`nominal` strictly between a largest stored key `lower < nominal` and a
smallest stored key `upper > nominal` it returns
`lower.error + (nominal - lower.key) * (upper.error - lower.error) /
(upper.key - lower.key)`. -/
theorem errorValue_exact_match_and_interpolation
    (t : CalibMap) (ht : KeysSorted t) (nominal : ℚ) :
    (∀ e, (nominal, e) ∈ t → errorValue nominal t = .ok e) ∧
    (∀ kl el ku eu, (kl, el) ∈ t → (ku, eu) ∈ t →
      kl < nominal → nominal < ku →
      (∀ p ∈ t, p.1 < nominal → p.1 ≤ kl) →
      (∀ p ∈ t, nominal < p.1 → ku ≤ p.1) →
      (∀ p ∈ t, p.1 ≠ nominal) →
      errorValue nominal t =
        .ok (el + (nominal - kl) * (eu - el) / (ku - kl))) := by
  constructor
  · intro e hmem
    exact errorValue_exact t ht nominal e hmem
  · intro kl el ku eu hmeml hmemu hkl hku hmaxl hminu hnokey
    have hlk : lookup nominal t = none :=
      (lookup_eq_none_iff nominal t).mpr hnokey
    have hlo : lowerBoundLE nominal t = some (kl, el) :=
      lowerBoundLE_eq_some_of t ht nominal kl el hmeml (le_of_lt hkl)
        (fun p hp hple => hmaxl p hp (lt_of_le_of_ne hple (hnokey p hp)))
    have hhi : upperBound nominal t = some (ku, eu) :=
      upperBound_eq_some_of t ht nominal ku eu hmemu hku hminu
    cases t with
    | nil => simp at hmeml
    | cons hd tl =>
      simp [errorValue, hlk, hlo, hhi, interpolate]

/-- C3: for every non-empty table and every nominal that does not exactly
equal a stored key, `ErrorValue(nominal)` raises the OutOfRange error
exactly when no stored key strictly below nominal or no stored key
strictly above nominal exists. -/
theorem errorValue_outOfRange_iff (t : CalibMap) (ht : KeysSorted t)
    (hne : t ≠ []) (nominal : ℚ) (hnokey : ∀ p ∈ t, p.1 ≠ nominal) :
    (errorValue nominal t = .error .outOfRange ↔
      (∀ p ∈ t, ¬ p.1 < nominal) ∨ (∀ p ∈ t, ¬ nominal < p.1)) := by
  have hlk : lookup nominal t = none :=
    (lookup_eq_none_iff nominal t).mpr hnokey
  have hEmpty : t.isEmpty = false := by
    cases t with
    | nil => exact absurd rfl hne
    | cons hd tl => rfl
  cases hlo : lowerBoundLE nominal t with
  | none =>
    refine iff_of_true (by simp [errorValue, hEmpty, hlk, hlo]) (Or.inl ?_)
    intro p hp
    exact lt_asymm ((lowerBoundLE_eq_none_iff nominal t ht).mp hlo p hp)
  | some lo =>
    cases hhi : upperBound nominal t with
    | none =>
      refine iff_of_true (by simp [errorValue, hEmpty, hlk, hlo, hhi])
        (Or.inr ((upperBound_eq_none_iff nominal t).mp hhi))
    | some hi =>
      refine iff_of_false (by simp [errorValue, hEmpty, hlk, hlo, hhi]) ?_
      rintro (hall | hall)
      · obtain ⟨hm, hle⟩ := lowerBoundLE_mem nominal t lo hlo
        exact hall lo hm (lt_of_le_of_ne hle (hnokey lo hm))
      · obtain ⟨hm, hlt⟩ := upperBound_mem nominal t hi hhi
        exact hall hi hm hlt

/-- C4: for every nominal input, `ErrorValue` and `CorrectedPosition`
invoked on a table with zero entries raise the EmptyTable error. -/
theorem query_empty_table_emptyTable (nominal : ℚ) :
    errorValue nominal [] = .error .emptyTable ∧
    correctedPosition nominal [] = .error .emptyTable :=
  ⟨rfl, rfl⟩

/-- C6: for every valid nominal `n`, `CorrectedPosition(n)` equals
`n - ErrorValue(n)`, and `CorrectedPosition` raises exactly the same
errors as `ErrorValue` on invalid inputs. -/
theorem correctedPosition_vs_errorValue (nominal : ℚ) (t : CalibMap) :
    (∀ e, errorValue nominal t = .ok e →
      correctedPosition nominal t = .ok (nominal - e)) ∧
    (∀ err, correctedPosition nominal t = .error err ↔
      errorValue nominal t = .error err) := by
  constructor
  · intro e he
    simp [correctedPosition, he, Except.map]
  · intro err
    cases he : errorValue nominal t <;>
      simp [correctedPosition, he, Except.map]

/-- C7: after `SetMap(M)` the table's contents equal `M` exactly, with
`M`'s values stored as error values unchanged; no entry of the prior
state survives. -/
theorem setMap_replaces_table (M t : CalibMap) :
    setMap M t = M ∧ ∀ k, lookup k (setMap M t) = lookup k M :=
  ⟨rfl, fun _ => rfl⟩

/-- C9: calling `AddPoint` twice with the same nominal and calibrated
arguments leaves the table in the same observable state as calling it
once. -/
theorem addPoint_idempotent (n c : ℚ) (t : CalibMap) :
    addPoint n c (addPoint n c t) = addPoint n c t :=
  insertEntry_idem n (n - c) t

/-- C2: `AppendMap` inserts a key from the incoming mapping only when
that key is absent from the table, leaving the stored error of every
already-present key unchanged; `AddPoint` with an already-present nominal
always overwrites that key's stored error with `nominal - calibrated`. -/
theorem appendMap_absent_only_addPoint_overwrites
    (M t : CalibMap) (ht : KeysSorted t) :
    (∀ k v, lookup k t = some v → lookup k (appendMap M t) = some v) ∧
    (∀ k v, lookup k t = none → lookup k M = some v →
      lookup k (appendMap M t) = some v) ∧
    (∀ n c v, lookup n t = some v →
      lookup n (addPoint n c t) = some (n - c)) :=
  ⟨fun k v hpres => lookup_appendMap_present M t ht k v hpres,
   fun k v habs hin => lookup_appendMap_absent M t ht k v habs hin,
   fun n c _ _ => lookup_insertEntry_self n (n - c) t⟩

theorem lookup_foldl_addPoint_not_mem (ps : List (ℚ × ℚ)) (n : ℚ)
    (hnot : ∀ p ∈ ps, p.1 ≠ n) (T : CalibMap) :
    lookup n (ps.foldl (fun acc p => addPoint p.1 p.2 acc) T) =
      lookup n T := by
  induction ps generalizing T with
  | nil => rfl
  | cons hd tl ih =>
    rw [List.foldl_cons]
    rw [ih (fun p hp => hnot p (List.mem_cons_of_mem _ hp))]
    exact lookup_insertEntry_ne n hd.1 (hd.1 - hd.2) T
      (fun h => hnot hd (List.mem_cons_self ..) (h ▸ rfl))

/-- C5: `AddPoints` raises the InvalidArgument error when the two input
sequences have different lengths and leaves the table as it was (no
partial insertion); with equal lengths it applies `AddPoint` to each
positional pair in order, so duplicate nominal keys within the batch
resolve to the last occurrence. -/
theorem addPoints_length_check_and_last_occurrence
    (ns cs : List ℚ) (t : CalibMap) :
    (ns.length ≠ cs.length →
      addPoints ns cs t = .error .invalidArgument) ∧
    (ns.length = cs.length →
      addPoints ns cs t =
        .ok ((ns.zip cs).foldl (fun acc p => addPoint p.1 p.2 acc) t)) ∧
    (∀ ps₁ n c ps₂, ns.zip cs = ps₁ ++ (n, c) :: ps₂ →
      (∀ p ∈ ps₂, p.1 ≠ n) →
      lookup n ((ns.zip cs).foldl (fun acc p => addPoint p.1 p.2 acc) t) =
        some (n - c)) := by
  refine ⟨fun hne => by simp [addPoints, hne],
    fun heq => by simp [addPoints, heq], ?_⟩
  intro ps₁ n c ps₂ hzip hnot
  rw [hzip, List.foldl_append, List.foldl_cons]
  rw [lookup_foldl_addPoint_not_mem ps₂ n hnot]
  exact lookup_insertEntry_self n (n - c) _

/-! ### Summary lemmas -/

theorem string_foldl_append (l : List String) (a : String) :
    l.foldl (fun r s => r ++ s) a = a ++ String.join l := by
  induction l generalizing a with
  | nil => simp [String.join]
  | cons s l ih =>
    rw [List.foldl_cons, ih]
    have hj : String.join (s :: l) = ("" ++ s) ++ String.join l := by
      show List.foldl (fun r t => r ++ t) "" (s :: l) = _
      rw [List.foldl_cons, ih]
    rw [hj, String.empty_append, String.append_assoc]

theorem string_join_cons (s : String) (l : List String) :
    String.join (s :: l) = s ++ String.join l := by
  show List.foldl (fun r t => r ++ t) "" (s :: l) = _
  rw [List.foldl_cons, string_foldl_append, String.empty_append]

theorem except_bind_ok {ε α β : Type} (a : α) (f : α → Except ε β) :
    (Except.ok a >>= f : Except ε β) = f a := rfl

theorem summaryRow_ok (fmt : ℚ → String) (t : CalibMap)
    (ht : KeysSorted t) (k e : ℚ) (hmem : (k, e) ∈ t) :
    summaryRow fmt t k = .ok (fmt k ++ "\t" ++ fmt (k - e) ++ "\t\t"
      ++ fmt e ++ "\t" ++ fmt (k - e) ++ "\n") := by
  have he := errorValue_exact t ht k e hmem
  simp only [summaryRow, he, correctedPosition, Except.map, except_bind_ok]
  rfl

theorem summaryGo_ok (fmt : ℚ → String) (t : CalibMap)
    (ht : KeysSorted t) (l : List (ℚ × ℚ)) (hsub : ∀ p ∈ l, p ∈ t) :
    ∀ acc : String,
      summaryGo fmt t l acc =
        .ok (acc ++ String.join (l.map (fun p =>
          fmt p.1 ++ "\t" ++ fmt (p.1 - p.2) ++ "\t\t" ++ fmt p.2 ++ "\t"
            ++ fmt (p.1 - p.2) ++ "\n"))) := by
  induction l with
  | nil => intro acc; simp [summaryGo, String.join]
  | cons hd tl ih =>
    intro acc
    obtain ⟨k, e⟩ := hd
    have hmem : (k, e) ∈ t := hsub (k, e) (List.mem_cons_self ..)
    have hrow := summaryRow_ok fmt t ht k e hmem
    have htl := ih (fun p hp => hsub p (List.mem_cons_of_mem _ hp))
    simp only [summaryGo, hrow, except_bind_ok, List.map_cons,
      string_join_cons]
    rw [htl]
    simp [String.append_assoc]

/-- C8: `GetMapSummary` returns the header line
`Nominal\tCalibrated\tError\tCorrected` followed by one line per stored
entry in ascending key order, fields separated by single tabs except two
tabs between the Calibrated and Error column values; on an empty table it
returns only the header line and raises no error. -/
theorem getMapSummary_format (fmt : ℚ → String) (t : CalibMap)
    (ht : KeysSorted t) :
    getMapSummary fmt t =
      .ok ("Nominal\tCalibrated\tError\tCorrected\n" ++
        String.join (t.map (fun p =>
          fmt p.1 ++ "\t" ++ fmt (p.1 - p.2) ++ "\t\t" ++ fmt p.2 ++ "\t"
            ++ fmt (p.1 - p.2) ++ "\n"))) ∧
    getMapSummary fmt [] = .ok "Nominal\tCalibrated\tError\tCorrected\n" :=
  ⟨summaryGo_ok fmt t ht t (fun _ hp => hp) _, rfl⟩

/-- C10: every per-entry line of `GetMapSummary` has its Calibrated field
equal to its Corrected field: both are `key - ErrorValue(key)`, and
`ErrorValue` on a stored key takes the exact-match branch returning the
stored error. -/
theorem summary_calibrated_eq_corrected (fmt : ℚ → String) (t : CalibMap)
    (ht : KeysSorted t) (k e : ℚ) (hmem : (k, e) ∈ t) :
    errorValue k t = .ok e ∧
    ∃ cal fieldE, summaryRow fmt t k =
      .ok (fmt k ++ "\t" ++ cal ++ "\t\t" ++ fieldE ++ "\t" ++ cal ++ "\n") :=
  ⟨errorValue_exact t ht k e hmem,
   ⟨fmt (k - e), fmt e, summaryRow_ok fmt t ht k e hmem⟩⟩

/-! ### Witnesses -/

/-- Witness for C1 on the table `[(0, 1), (2, 3)]`: exact match at key 0
returns the stored error 1, and nominal 1 strictly between keys 0 and 2
returns the interpolated value. -/
theorem errorValue_exact_match_and_interpolation_witness :
    errorValue 0 [(0, 1), (2, 3)] = .ok 1 ∧
    errorValue 1 [(0, 1), (2, 3)] =
      .ok (1 + (1 - 0) * (3 - 1) / (2 - 0)) := by
  have h0 := errorValue_exact_match_and_interpolation [(0, 1), (2, 3)]
    (by norm_num [KeysSorted]) 0
  have h1 := errorValue_exact_match_and_interpolation [(0, 1), (2, 3)]
    (by norm_num [KeysSorted]) 1
  refine ⟨h0.1 1 (by simp), h1.2 0 1 2 3 (by simp) (by simp)
    (by norm_num) (by norm_num) ?_ ?_ ?_⟩
  · intro p hp
    simp only [List.mem_cons, List.not_mem_nil, or_false] at hp
    rcases hp with rfl | rfl <;> norm_num
  · intro p hp
    simp only [List.mem_cons, List.not_mem_nil, or_false] at hp
    rcases hp with rfl | rfl <;> norm_num
  · intro p hp
    simp only [List.mem_cons, List.not_mem_nil, or_false] at hp
    rcases hp with rfl | rfl <;> norm_num

/-- Witness for C2: appending `[(1, 5), (3, 4)]` to `[(1, 2)]` keeps the
stored error of the present key 1 and inserts the absent key 3, while
`AddPoint` overwrites the present key 1. -/
theorem appendMap_absent_only_addPoint_overwrites_witness :
    lookup 1 (appendMap [(1, 5), (3, 4)] [(1, 2)]) = some 2 ∧
    lookup 3 (appendMap [(1, 5), (3, 4)] [(1, 2)]) = some 4 ∧
    lookup 1 (addPoint 1 3 [(1, 2)]) = some (1 - 3) := by
  have h := appendMap_absent_only_addPoint_overwrites [(1, 5), (3, 4)]
    [(1, 2)] (by norm_num [KeysSorted])
  exact ⟨h.1 1 2 (by norm_num [lookup]),
    h.2.1 3 4 (by norm_num [lookup]) (by norm_num [lookup]),
    h.2.2 1 3 2 (by norm_num [lookup])⟩

/-- Witness for C3: on the table `[(0, 1), (2, 3)]`, nominal 5 lies above
the largest key, so `ErrorValue` raises OutOfRange. -/
theorem errorValue_outOfRange_iff_witness :
    errorValue 5 [(0, 1), (2, 3)] = .error .outOfRange := by
  have h := errorValue_outOfRange_iff [(0, 1), (2, 3)]
    (by norm_num [KeysSorted]) (by simp) 5
    (by
      intro p hp
      simp only [List.mem_cons, List.not_mem_nil, or_false] at hp
      rcases hp with rfl | rfl <;> norm_num)
  exact h.mpr (Or.inr (by
    intro p hp
    simp only [List.mem_cons, List.not_mem_nil, or_false] at hp
    rcases hp with rfl | rfl <;> norm_num))

/-- Witness for C5: mismatched lengths raise InvalidArgument, and the
batch `[1, 2, 1] / [5, 6, 7]` resolves key 1 to its last occurrence. -/
theorem addPoints_length_check_and_last_occurrence_witness :
    addPoints [1] [] [] = .error .invalidArgument ∧
    lookup 1 ((([1, 2, 1] : List ℚ).zip ([5, 6, 7] : List ℚ)).foldl
      (fun acc p => addPoint p.1 p.2 acc) []) = some (1 - 7) := by
  refine ⟨(addPoints_length_check_and_last_occurrence [1] [] []).1
    (by simp), ?_⟩
  exact (addPoints_length_check_and_last_occurrence [1, 2, 1] [5, 6, 7]
    []).2.2 [(1, 5), (2, 6)] 1 7 [] rfl (by simp)

/-- Witness for C6: on the table `[(0, 1)]`, `CorrectedPosition 0`
returns `0 - 1`, and on the empty table it fails exactly when
`ErrorValue` does. -/
theorem correctedPosition_vs_errorValue_witness :
    correctedPosition 0 [(0, 1)] = .ok (0 - 1) ∧
    (correctedPosition 0 [] = .error .emptyTable ↔
      errorValue 0 [] = .error .emptyTable) :=
  ⟨(correctedPosition_vs_errorValue 0 [(0, 1)]).1 1
      (by norm_num [errorValue, lookup]),
    (correctedPosition_vs_errorValue 0 []).2 .emptyTable⟩

/-- Witness for C8: the summary of the one-entry table `[(0, 1)]` under a
constant rendering function. -/
theorem getMapSummary_format_witness :
    getMapSummary (fun _ => "*") [(0, 1)] =
      .ok ("Nominal\tCalibrated\tError\tCorrected\n" ++
        String.join (([(0, 1)] : CalibMap).map (fun p =>
          (fun _ => "*") p.1 ++ "\t" ++ (fun _ => "*") (p.1 - p.2) ++ "\t\t"
            ++ (fun _ => "*") p.2 ++ "\t"
            ++ (fun _ => "*") (p.1 - p.2) ++ "\n"))) ∧
    getMapSummary (fun _ => "*") [] =
      .ok "Nominal\tCalibrated\tError\tCorrected\n" :=
  getMapSummary_format (fun _ => "*") [(0, 1)] (by norm_num [KeysSorted])

/-- Witness for C10: the summary row for the stored key 0 of `[(0, 1)]`
has identical Calibrated and Corrected fields. -/
theorem summary_calibrated_eq_corrected_witness :
    errorValue 0 [(0, 1)] = .ok 1 ∧
    ∃ cal fieldE, summaryRow (fun _ => "*") [(0, 1)] 0 =
      .ok ((fun _ => "*") (0 : ℚ) ++ "\t" ++ cal ++ "\t\t" ++ fieldE
        ++ "\t" ++ cal ++ "\n") :=
  summary_calibrated_eq_corrected (fun _ => "*") [(0, 1)]
    (by norm_num [KeysSorted]) 0 1 (by simp)
